import Mathlib

/-!
Verification of the Parts Sandbox alias reconciliation engine
(`src/manager.py`) against its natural-language specification.

The manager is embedded shallowly: the SQLite `aliases` table and the
`aliases` sheet of `parts_sandbox.xlsx` become lists of `AliasRecord`
(kept in row order), Excel reads become explicit per-file outcomes, and
Python exceptions become `Except` errors.
-/

namespace PartsSandbox

/-- One row of the alias store: `{alias: string, value: string}`. -/
structure AliasRecord where
  «alias» : String
  value : String
deriving DecidableEq

/-- First-match lookup of an alias in a list of records (the value the
store serves for a key; SQL lookups on the primary key see at most one
row, list order models row order). -/
def lookupAlias (l : List AliasRecord) (a : String) : Option String :=
  (l.find? (fun r => r.alias == a)).map (fun r => r.value)

/-- Boolean test: does some record of `l` carry alias `a`? -/
def aliasMemB (l : List AliasRecord) (a : String) : Bool :=
  l.any (fun r => r.alias == a)

/-- Value of the LAST record carrying alias `a` (SQLite `INSERT OR
REPLACE` processes rows in order, so the last duplicate wins). -/
def lookupLast (l : List AliasRecord) (a : String) : Option String :=
  lookupAlias l.reverse a

/-- SQLite `INSERT OR REPLACE` of one row into a table whose primary key
is `alias`: an existing row for the same alias is replaced, otherwise the
row is appended (`manager.py` lines 107-110). -/
def insertOrReplace (store : List AliasRecord) (r : AliasRecord) : List AliasRecord :=
  if store.any (fun s => s.alias == r.alias) then
    store.map (fun s => if s.alias == r.alias then r else s)
  else
    store ++ [r]

/-- The merge performed by `update_alias`: every incoming row is inserted
with `INSERT OR REPLACE`, in order. -/
def updateAliasMerge (store incoming : List AliasRecord) : List AliasRecord :=
  incoming.foldl insertOrReplace store

/-- A loaded worksheet: the first row (header labels) and the remaining
data rows, as produced by `pd.read_excel` / `df.iloc` in the source. -/
structure Sheet where
  header : List String
  rows : List (List String)
deriving DecidableEq

/-- Projection of the `alias`/`value` columns of a sheet
(`df[[ 'alias', 'value' ]]`): each data row is read at the positions of
the `alias` and `value` header labels, short rows giving empty cells. -/
def extractRecords (header : List String) (rows : List (List String)) : List AliasRecord :=
  let i := header.findIdx (fun h => h == "alias")
  let j := header.findIdx (fun h => h == "value")
  rows.map (fun row => { «alias» := row.getD i "", value := row.getD j "" })

/-- `ApplicationManager.update_alias` (`manager.py` lines 83-120): the
Excel read outcome is the input; a read failure or missing `alias`/`value`
columns return `False` with the store untouched, otherwise the rows are
merged by `INSERT OR REPLACE` and `True` is returned. -/
def update_alias (store : List AliasRecord) (file : Except String Sheet) :
    Bool × List AliasRecord :=
  match file with
  | Except.error _ => (false, store)
  | Except.ok sheet =>
    if sheet.header.contains "alias" && sheet.header.contains "value" then
      (true, updateAliasMerge store (extractRecords sheet.header sheet.rows))
    else
      (false, store)

/-- `drop_duplicates(subset=[ 'alias' ], keep='first')`, processing rows in
order and keeping a row only when its alias was not seen before; `seen`
holds the aliases already kept. -/
def dedupKeepFirstAux (seen : List String) : List AliasRecord → List AliasRecord
  | [] => []
  | r :: rs =>
    if seen.contains r.alias then dedupKeepFirstAux seen rs
    else r :: dedupKeepFirstAux (r.alias :: seen) rs

/-- Pandas `drop_duplicates(subset=[ 'alias' ], keep='first')`. -/
def dedupKeepFirst (rs : List AliasRecord) : List AliasRecord :=
  dedupKeepFirstAux [] rs

/-- The merge of `refresh_all_files` (`manager.py` lines 238-245): the
incoming batch is deduplicated keeping first occurrences, appended after
the existing sheet, and deduplicated again, so existing rows win. -/
def refreshMerge (existing incoming : List AliasRecord) : List AliasRecord :=
  dedupKeepFirst (existing ++ dedupKeepFirst incoming)

/-- Outcome of reading one candidate Quote Master file inside the
`refresh_all_files` loop:
* `openError` — `QMFile(file)` raised (file unreadable or the
  `Master Part List` sheet missing), so the name `qm_file` was never
  bound in that iteration;
* `parseError` — an exception after `qm_file` was bound (e.g. an empty
  sheet failing at `df.iloc[0]`);
* `sheetData` — the master sheet loaded, split into header row and data
  rows. -/
inductive QMOutcome where
  | openError (msg : String)
  | parseError (msg : String)
  | sheetData (header : List String) (rows : List (List String))
deriving DecidableEq

/-- State threaded through the per-file loop of `refresh_all_files`
(`manager.py` lines 207-236): whether the Python name `qm_file` has been
bound by a previous iteration, the `had_warnings` flag, and the
`all_aliases` list of per-file record batches. -/
structure LoopState where
  qmBound : Bool
  hadWarnings : Bool
  allAliases : List (List AliasRecord)
deriving DecidableEq

/-- One iteration of the `refresh_all_files` loop (`manager.py` lines
211-236).  An `openError` on an iteration where `qm_file` was never bound
makes the `finally` block raise `NameError` (uncaught, aborting the
batch); any later error only sets `had_warnings` and continues.  A sheet
with both `alias` and `value` columns contributes its records to
`all_aliases`, otherwise `had_warnings` is set. -/
def processFile (st : LoopState) (f : QMOutcome) : Except String LoopState :=
  match f with
  | QMOutcome.openError _ =>
    if st.qmBound then Except.ok { st with hadWarnings := true }
    else Except.error "name qm_file is not defined"
  | QMOutcome.parseError _ =>
    Except.ok { st with qmBound := true, hadWarnings := true }
  | QMOutcome.sheetData header rows =>
    if header.contains "alias" && header.contains "value" then
      Except.ok { st with qmBound := true,
                          allAliases := st.allAliases ++ [extractRecords header rows] }
    else
      Except.ok { st with qmBound := true, hadWarnings := true }

/-- `ApplicationManager.refresh_all_files` (`manager.py` lines 177-260).
Inputs: the per-file read outcomes of the discovered candidate files (in
processing order) and the current content of the `aliases` sheet of
`parts_sandbox.xlsx`.  Output: `Except.error` when the run raises, else
the returned flag `not had_warnings` together with the sheet content
after the run (persisting the merged aliases replaces the sheet; with no
contributing file the sheet is left untouched). -/
def refresh_all_files (files : List QMOutcome) (store : List AliasRecord) :
    Except String (Bool × List AliasRecord) :=
  if files.isEmpty then Except.ok (false, store)
  else
    match files.foldlM processFile ⟨false, false, []⟩ with
    | Except.error e => Except.error ("Error preparing master file: " ++ e)
    | Except.ok st =>
      Except.ok (!st.hadWarnings,
        if st.allAliases.isEmpty then store
        else refreshMerge store st.allAliases.flatten)

/-- ASCII-only lower casing, as applied by SQLite `LIKE`. -/
def asciiLower (c : Char) : Char :=
  if 65 ≤ c.toNat ∧ c.toNat ≤ 90 then Char.ofNat (c.toNat + 32) else c

/-- SQLite `LIKE` pattern matching: `%` matches any character sequence,
`_` any single character, and other characters match up to ASCII case. -/
def likeMatch : List Char → List Char → Bool
  | [], s => s.isEmpty
  | p :: ps, s =>
    if p == '%' then s.tails.any (fun t => likeMatch ps t)
    else if p == '_' then
      match s with
      | [] => false
      | _ :: s2 => likeMatch ps s2
    else
      match s with
      | [] => false
      | c :: s2 => (asciiLower p == asciiLower c) && likeMatch ps s2

/-- `alias LIKE ? OR value LIKE ?` with parameter `%term%`
(`manager.py` lines 149-152). -/
def likeRow (term : String) (r : AliasRecord) : Bool :=
  likeMatch ('%' :: (term.data ++ ['%'])) r.alias.data ||
  likeMatch ('%' :: (term.data ++ ['%'])) r.value.data

/-- `ApplicationManager.search_parts` (`manager.py` lines 139-160): the
database read outcome is the input; any exception yields `[]`, otherwise
the rows matching the `LIKE` query are returned in table order. -/
def search_parts (db : Except String (List AliasRecord)) (term : String) :
    List AliasRecord :=
  match db with
  | Except.error _ => []
  | Except.ok store => store.filter (likeRow term)

/-- The spec's wording of the search predicate ("the term occurs verbatim,
matching letter case, inside the alias or inside the value"): plain
case-sensitive substring containment. -/
def specCaseSensitiveMatch (term : String) (r : AliasRecord) : Prop :=
  term.data <:+: r.alias.data ∨ term.data <:+: r.value.data

instance (term : String) (r : AliasRecord) : Decidable (specCaseSensitiveMatch term r) := by
  unfold specCaseSensitiveMatch; infer_instance

/-- Case-insensitive (ASCII) substring containment: what the SQLite
`LIKE '%term%'` query actually tests for a wildcard-free term. -/
def ciContains (term s : String) : Prop :=
  term.data.map asciiLower <:+: s.data.map asciiLower

instance (term s : String) : Decidable (ciContains term s) := by
  unfold ciContains; infer_instance

/-- `ApplicationManager.get_eau_forecast` (`manager.py` lines 162-175):
the body immediately references the unbound name `file_path`, so every
call raises `NameError` (not caught by the `except FileNotFoundError`
clause) and no value is ever returned. -/
def get_eau_forecast (part_number : String) : Except String (String × Nat) :=
  Except.error "name file_path is not defined"

/-- `ApplicationManager.get_quote_master_files` (`manager.py` lines
122-137): the directory listing outcome is the input, each entry a file
name with its `os.path.isfile` flag; any exception yields `[]`, otherwise
the `.xlsx` plain files other than `parts_sandbox.xlsx` are returned. -/
def get_quote_master_files (listing : Except String (List (String × Bool))) :
    List String :=
  match listing with
  | Except.error _ => []
  | Except.ok entries =>
    (entries.filter (fun e => e.2 && e.1.endsWith ".xlsx" && e.1 != "parts_sandbox.xlsx")).map
      (fun e => e.1)

/-- One audit row of the `quote_masters` table
(`manager.py` lines 54-60; the timestamp column is not modelled). -/
structure QuoteMasterRow where
  id : Nat
  file_name : String
deriving DecidableEq

/-- The persistent state the manager touches: the SQLite `aliases` and
`quote_masters` tables and the `aliases` sheet of `parts_sandbox.xlsx`. -/
structure AppState where
  aliases : List AliasRecord
  quote_masters : List QuoteMasterRow
  sandbox : List AliasRecord
deriving DecidableEq

/-- State after `_init_db` on a fresh database (`CREATE TABLE IF NOT
EXISTS` creates both tables empty), with the sandbox sheet as found on
disk. -/
def initialState (sandbox0 : List AliasRecord) : AppState :=
  { aliases := [], quote_masters := [], sandbox := sandbox0 }

/-- One invocation of a public manager operation, carrying the external
inputs (file reads, directory listings, query arguments) it consumes. -/
inductive ManagerOp where
  | updateAlias (file : Except String Sheet)
  | refreshAll (files : List QMOutcome)
  | searchParts (term : String)
  | getQuoteMasterFiles (listing : Except String (List (String × Bool)))
  | getEauForecast (part : String)

/-- Effect of one public operation on the persistent state.
`update_alias` rewrites only the `aliases` table; `refresh_all_files`
rewrites only the sandbox sheet (and leaves it untouched when it
raises, since the raise happens before the save); the query operations
only read. -/
def applyOp (st : AppState) : ManagerOp → AppState
  | ManagerOp.updateAlias file => { st with aliases := (update_alias st.aliases file).2 }
  | ManagerOp.refreshAll files =>
    match refresh_all_files files st.sandbox with
    | Except.ok (_, s) => { st with sandbox := s }
    | Except.error _ => st
  | ManagerOp.searchParts _ => st
  | ManagerOp.getQuoteMasterFiles _ => st
  | ManagerOp.getEauForecast _ => st

/-- Property of a list of records: no two rows share an alias (the
`aliases` primary-key invariant). -/
def AliasNodup (l : List AliasRecord) : Prop :=
  l.Pairwise (fun r s => r.alias ≠ s.alias)

theorem contains_iff_mem {l : List String} {a : String} :
    l.contains a = true ↔ a ∈ l := by
  simp [List.contains, List.elem_iff]

theorem contains_eq_false_iff {l : List String} {a : String} :
    l.contains a = false ↔ a ∉ l := by
  rw [← Bool.not_eq_true, not_iff_not, contains_iff_mem]

theorem aliasMemB_iff {l : List AliasRecord} {a : String} :
    aliasMemB l a = true ↔ ∃ r ∈ l, r.alias = a := by
  simp [aliasMemB, List.any_eq_true]

theorem aliasMemB_eq_false_iff {l : List AliasRecord} {a : String} :
    aliasMemB l a = false ↔ ∀ r ∈ l, r.alias ≠ a := by
  rw [← Bool.not_eq_true, not_iff_comm, aliasMemB_iff]
  push_neg
  tauto

theorem lookupAlias_eq_none {l : List AliasRecord} {a : String}
    (h : aliasMemB l a = false) : lookupAlias l a = none := by
  have h2 := aliasMemB_eq_false_iff.mp h
  unfold lookupAlias
  rw [List.find?_eq_none.mpr]
  · rfl
  · intro r hr
    simpa using h2 r hr

theorem find?_isSome_of_aliasMemB {l : List AliasRecord} {a : String}
    (h : aliasMemB l a = true) :
    (List.find? (fun r => r.alias == a) l).isSome = true := by
  obtain ⟨r, hr, ha⟩ := aliasMemB_iff.mp h
  have hb : (fun r : AliasRecord => r.alias == a) r = true := by simp [ha]
  exact List.find?_isSome.mpr ⟨r, hr, hb⟩

theorem lookupAlias_isSome {l : List AliasRecord} {a : String}
    (h : aliasMemB l a = true) : (lookupAlias l a).isSome = true := by
  obtain ⟨s, hs⟩ := Option.isSome_iff_exists.mp (find?_isSome_of_aliasMemB h)
  unfold lookupAlias
  rw [hs]
  rfl

theorem lookupAlias_append_left {l m : List AliasRecord} {a : String}
    (h : aliasMemB l a = true) :
    lookupAlias (l ++ m) a = lookupAlias l a := by
  unfold lookupAlias
  rw [List.find?_append]
  obtain ⟨s, hs⟩ := Option.isSome_iff_exists.mp (find?_isSome_of_aliasMemB h)
  rw [hs]
  rfl

theorem lookupAlias_append_right {l m : List AliasRecord} {a : String}
    (h : aliasMemB l a = false) :
    lookupAlias (l ++ m) a = lookupAlias m a := by
  unfold lookupAlias
  rw [List.find?_append]
  have h2 := aliasMemB_eq_false_iff.mp h
  rw [List.find?_eq_none.mpr]
  · rfl
  · intro r hr
    simpa using h2 r hr

theorem mem_of_mem_dedupAux {r : AliasRecord} :
    ∀ (l : List AliasRecord) (seen : List String),
      r ∈ dedupKeepFirstAux seen l → r ∈ l := by
  intro l
  induction l with
  | nil => intro seen h; simp [dedupKeepFirstAux] at h
  | cons s rest ih =>
    intro seen h
    by_cases hc : seen.contains s.alias = true
    · simp only [dedupKeepFirstAux, if_pos hc] at h
      exact List.mem_cons_of_mem s (ih seen h)
    · rw [dedupKeepFirstAux, if_neg hc] at h
      rcases List.mem_cons.mp h with h1 | h2
      · exact h1 ▸ List.mem_cons_self s rest
      · exact List.mem_cons_of_mem s (ih _ h2)

theorem dedupAux_lookup {a : String} :
    ∀ (l : List AliasRecord) (seen : List String), seen.contains a = false →
      lookupAlias (dedupKeepFirstAux seen l) a = lookupAlias l a := by
  intro l
  induction l with
  | nil => intro seen _; rfl
  | cons s rest ih =>
    intro seen hseen
    by_cases hc : seen.contains s.alias = true
    · rw [dedupKeepFirstAux, if_pos hc]
      have hne : s.alias ≠ a := by
        intro he
        rw [he, hseen] at hc
        exact Bool.false_ne_true hc
      rw [ih seen hseen]
      unfold lookupAlias
      rw [List.find?_cons_of_neg]
      simpa using hne
    · rw [dedupKeepFirstAux, if_neg hc]
      by_cases hsa : s.alias = a
      · unfold lookupAlias
        rw [List.find?_cons_of_pos, List.find?_cons_of_pos] <;> simp [hsa]
      · unfold lookupAlias
        rw [List.find?_cons_of_neg, List.find?_cons_of_neg]
        · have hseen2 : (s.alias :: seen).contains a = false := by
            rw [contains_eq_false_iff]
            intro hmem
            rcases List.mem_cons.mp hmem with h1 | h2
            · exact hsa h1.symm
            · exact (contains_eq_false_iff.mp hseen) h2
          exact ih _ hseen2
        · simpa using hsa
        · simpa using hsa

theorem dedupAux_aliasMem {a : String} :
    ∀ (l : List AliasRecord) (seen : List String), seen.contains a = false →
      aliasMemB (dedupKeepFirstAux seen l) a = aliasMemB l a := by
  intro l
  induction l with
  | nil => intro seen _; rfl
  | cons s rest ih =>
    intro seen hseen
    by_cases hc : seen.contains s.alias = true
    · rw [dedupKeepFirstAux, if_pos hc]
      have hne : s.alias ≠ a := by
        intro he
        rw [he, hseen] at hc
        exact Bool.false_ne_true hc
      rw [ih seen hseen]
      simp [aliasMemB, hne]
    · rw [dedupKeepFirstAux, if_neg hc]
      by_cases hsa : s.alias = a
      · simp [aliasMemB, hsa]
      · have hseen2 : (s.alias :: seen).contains a = false := by
          rw [contains_eq_false_iff]
          intro hmem
          rcases List.mem_cons.mp hmem with h1 | h2
          · exact hsa h1.symm
          · exact (contains_eq_false_iff.mp hseen) h2
        simp only [aliasMemB, List.any_cons]
        rw [show (s.alias == a) = false by simpa using hsa]
        simpa [aliasMemB] using ih _ hseen2

theorem dedupAux_unseen {r : AliasRecord} :
    ∀ (l : List AliasRecord) (seen : List String),
      r ∈ dedupKeepFirstAux seen l → seen.contains r.alias = false := by
  intro l
  induction l with
  | nil => intro seen h; simp [dedupKeepFirstAux] at h
  | cons s rest ih =>
    intro seen h
    by_cases hc : seen.contains s.alias = true
    · rw [dedupKeepFirstAux, if_pos hc] at h
      exact ih seen h
    · rw [dedupKeepFirstAux, if_neg hc] at h
      rcases List.mem_cons.mp h with h1 | h2
      · rw [h1]
        exact Bool.not_eq_true _ ▸ hc
      · have h3 := ih _ h2
        rw [contains_eq_false_iff] at h3 ⊢
        intro hmem
        exact h3 (List.mem_cons_of_mem _ hmem)

theorem dedupAux_nodup :
    ∀ (l : List AliasRecord) (seen : List String),
      AliasNodup (dedupKeepFirstAux seen l) := by
  intro l
  induction l with
  | nil => intro seen; exact List.Pairwise.nil
  | cons s rest ih =>
    intro seen
    by_cases hc : seen.contains s.alias = true
    · rw [dedupKeepFirstAux, if_pos hc]
      exact ih seen
    · rw [dedupKeepFirstAux, if_neg hc]
      refine List.Pairwise.cons ?_ (ih _)
      intro t ht he
      have h3 := dedupAux_unseen rest (s.alias :: seen) ht
      rw [contains_eq_false_iff] at h3
      exact h3 (he ▸ List.mem_cons_self _ _)

theorem dedupAux_append (m : List AliasRecord) :
    ∀ (l : List AliasRecord) (seen : List String),
      dedupKeepFirstAux seen (l ++ m) =
        dedupKeepFirstAux seen l ++
          dedupKeepFirstAux
            (((dedupKeepFirstAux seen l).map (fun r => r.alias)).reverse ++ seen) m := by
  intro l
  induction l with
  | nil => intro seen; simp [dedupKeepFirstAux]
  | cons s rest ih =>
    intro seen
    by_cases hc : seen.contains s.alias = true
    · rw [List.cons_append, dedupKeepFirstAux, if_pos hc, dedupKeepFirstAux, if_pos hc]
      exact ih seen
    · rw [List.cons_append, dedupKeepFirstAux, if_neg hc, dedupKeepFirstAux, if_neg hc]
      rw [ih (s.alias :: seen)]
      simp [List.append_assoc]

theorem dedupAux_eq_nil :
    ∀ (m : List AliasRecord) (seen : List String),
      (∀ r ∈ m, seen.contains r.alias = true) → dedupKeepFirstAux seen m = [] := by
  intro m
  induction m with
  | nil => intro seen _; rfl
  | cons s rest ih =>
    intro seen h
    rw [dedupKeepFirstAux, if_pos (h s (List.mem_cons_self _ _))]
    exact ih seen (fun r hr => h r (List.mem_cons_of_mem _ hr))

theorem dedupAux_eq_self :
    ∀ (l : List AliasRecord) (seen : List String), AliasNodup l →
      (∀ r ∈ l, seen.contains r.alias = false) → dedupKeepFirstAux seen l = l := by
  intro l
  induction l with
  | nil => intro seen _ _; rfl
  | cons s rest ih =>
    intro seen hnd hout
    have hc : seen.contains s.alias = false := hout s (List.mem_cons_self _ _)
    rw [dedupKeepFirstAux, if_neg (by rw [hc]; exact Bool.false_ne_true)]
    congr 1
    refine ih _ (List.Pairwise.of_cons hnd) ?_
    intro r hr
    rw [contains_eq_false_iff]
    intro hmem
    rcases List.mem_cons.mp hmem with h1 | h2
    · exact (List.pairwise_cons.mp hnd).1 r hr h1.symm
    · exact (contains_eq_false_iff.mp (hout r (List.mem_cons_of_mem _ hr))) h2

theorem dedup_nodup (l : List AliasRecord) : AliasNodup (dedupKeepFirst l) :=
  dedupAux_nodup l []

theorem dedup_lookup (l : List AliasRecord) (a : String) :
    lookupAlias (dedupKeepFirst l) a = lookupAlias l a :=
  dedupAux_lookup l [] rfl

theorem dedup_mem {r : AliasRecord} {l : List AliasRecord}
    (h : r ∈ dedupKeepFirst l) : r ∈ l :=
  mem_of_mem_dedupAux l [] h

theorem dedup_aliasMem (l : List AliasRecord) (a : String) :
    aliasMemB (dedupKeepFirst l) a = aliasMemB l a :=
  dedupAux_aliasMem l [] rfl

theorem dedup_absorb {s m : List AliasRecord} (hnd : AliasNodup s)
    (hsub : ∀ r ∈ m, aliasMemB s r.alias = true) :
    dedupKeepFirst (s ++ m) = s := by
  unfold dedupKeepFirst
  rw [dedupAux_append m s []]
  have hself : dedupKeepFirstAux [] s = s :=
    dedupAux_eq_self s [] hnd (fun r _ => rfl)
  rw [hself]
  rw [dedupAux_eq_nil m _ ?_]
  · exact List.append_nil s
  · intro r hr
    rw [contains_iff_mem]
    obtain ⟨t, ht, hta⟩ := aliasMemB_iff.mp (hsub r hr)
    rw [List.append_nil, List.mem_reverse]
    exact List.mem_map.mpr ⟨t, ht, hta⟩

theorem lookupAlias_append (l m : List AliasRecord) (a : String) :
    lookupAlias (l ++ m) a = (lookupAlias l a).or (lookupAlias m a) := by
  unfold lookupAlias
  rw [List.find?_append]
  cases List.find? (fun r => r.alias == a) l <;> simp

theorem lookupAlias_singleton (r : AliasRecord) (a : String) :
    lookupAlias [r] a = if r.alias = a then some r.value else none := by
  by_cases h : r.alias = a
  · rw [if_pos h]
    unfold lookupAlias
    rw [List.find?_cons_of_pos _ (by simpa using h)]
    rfl
  · rw [if_neg h]
    unfold lookupAlias
    rw [List.find?_cons_of_neg _ (by simpa using h)]
    rfl

theorem mapReplace_lookup (r : AliasRecord) (a : String) :
    ∀ store : List AliasRecord,
      lookupAlias (store.map (fun s => if s.alias == r.alias then r else s)) a =
        if r.alias = a then
          (if aliasMemB store r.alias = true then some r.value else none)
        else lookupAlias store a := by
  intro store
  induction store with
  | nil => by_cases h : r.alias = a <;> simp [lookupAlias, aliasMemB, h]
  | cons s rest ih =>
    by_cases hsr : s.alias = r.alias
    · rw [List.map_cons, if_pos (by simpa using hsr)]
      have hmem : aliasMemB (s :: rest) r.alias = true :=
        aliasMemB_iff.mpr ⟨s, List.mem_cons_self _ _, hsr⟩
      by_cases hra : r.alias = a
      · rw [if_pos hra, if_pos hmem]
        unfold lookupAlias
        rw [List.find?_cons_of_pos _ (by simpa using hra)]
        rfl
      · rw [if_neg hra]
        unfold lookupAlias
        rw [List.find?_cons_of_neg _ (by simpa using hra),
          List.find?_cons_of_neg _ (by simp [hsr]; exact hra)]
        have := ih
        rw [if_neg hra] at this
        exact this
    · rw [List.map_cons, if_neg (by simpa using hsr)]
      by_cases hsa : s.alias = a
      · have hra : ¬ r.alias = a := fun h => hsr (hsa.trans h.symm)
        rw [if_neg hra]
        unfold lookupAlias
        rw [List.find?_cons_of_pos _ (by simpa using hsa),
          List.find?_cons_of_pos _ (by simpa using hsa)]
      · unfold lookupAlias
        rw [List.find?_cons_of_neg _ (by simpa using hsa)]
        by_cases hra : r.alias = a
        · rw [if_pos hra]
          have hm : aliasMemB (s :: rest) r.alias = aliasMemB rest r.alias := by
            simp [aliasMemB, List.any_cons, show (s.alias == r.alias) = false by simpa using hsr]
          rw [hm]
          have := ih
          rw [if_pos hra] at this
          exact this
        · rw [if_neg hra]
          rw [List.find?_cons_of_neg _ (by simpa using hsa)]
          have := ih
          rw [if_neg hra] at this
          exact this

theorem lookup_insertOrReplace (store : List AliasRecord) (r : AliasRecord) (a : String) :
    lookupAlias (insertOrReplace store r) a =
      if r.alias = a then some r.value else lookupAlias store a := by
  unfold insertOrReplace
  by_cases hany : store.any (fun s => s.alias == r.alias) = true
  · rw [if_pos hany]
    rw [mapReplace_lookup r a store]
    by_cases hra : r.alias = a
    · rw [if_pos hra, if_pos hra, if_pos (by simpa [aliasMemB] using hany)]
    · rw [if_neg hra, if_neg hra]
  · rw [if_neg hany]
    have hmem : aliasMemB store r.alias = false := by
      simpa [aliasMemB] using hany
    by_cases hra : r.alias = a
    · rw [if_pos hra]
      rw [lookupAlias_append_right (by rwa [hra] at hmem), lookupAlias_singleton, if_pos hra]
    · rw [if_neg hra]
      by_cases hsa : aliasMemB store a = true
      · rw [lookupAlias_append_left hsa]
      · rw [lookupAlias_append_right (Bool.not_eq_true _ ▸ hsa),
          lookupAlias_singleton, if_neg hra, lookupAlias_eq_none (Bool.not_eq_true _ ▸ hsa)]

theorem updateMerge_lookup (a : String) :
    ∀ (inc store : List AliasRecord),
      lookupAlias (updateAliasMerge store inc) a =
        (lookupLast inc a).or (lookupAlias store a) := by
  intro inc
  induction inc with
  | nil =>
    intro store
    simp [updateAliasMerge, lookupLast, lookupAlias]
  | cons r rest ih =>
    intro store
    have hstep : updateAliasMerge store (r :: rest) =
        updateAliasMerge (insertOrReplace store r) rest := rfl
    rw [hstep, ih]
    have hlast : lookupLast (r :: rest) a =
        (lookupLast rest a).or (lookupAlias [r] a) := by
      unfold lookupLast
      rw [List.reverse_cons, lookupAlias_append]
    rw [hlast, Option.or_assoc]
    congr 1
    rw [lookup_insertOrReplace, lookupAlias_singleton]
    by_cases hra : r.alias = a
    · rw [if_pos hra, if_pos hra]
      rfl
    · rw [if_neg hra, if_neg hra]
      rfl

theorem lookupLast_isSome {inc : List AliasRecord} {a : String}
    (h : aliasMemB inc a = true) : (lookupLast inc a).isSome = true := by
  unfold lookupLast
  refine lookupAlias_isSome ?_
  obtain ⟨r, hr, ha⟩ := aliasMemB_iff.mp h
  exact aliasMemB_iff.mpr ⟨r, List.mem_reverse.mpr hr, ha⟩

theorem processFile_warn_mono {st st2 : LoopState} {f : QMOutcome}
    (h : processFile st f = Except.ok st2) (hw : st.hadWarnings = true) :
    st2.hadWarnings = true := by
  cases f with
  | openError m =>
    simp only [processFile] at h
    by_cases hb : st.qmBound = true
    · rw [if_pos hb] at h
      injection h with h2
      rw [← h2]
    · rw [if_neg hb] at h
      exact absurd h (by simp)
  | parseError m =>
    simp only [processFile] at h
    injection h with h2
    rw [← h2]
  | sheetData hd rows =>
    simp only [processFile] at h
    by_cases hc : (hd.contains "alias" && hd.contains "value") = true
    · rw [if_pos hc] at h
      injection h with h2
      rw [← h2]
      exact hw
    · rw [if_neg hc] at h
      injection h with h2
      rw [← h2]

theorem processFile_missingCols {st st2 : LoopState} {hd : List String}
    {rows : List (List String)}
    (hcols : (hd.contains "alias" && hd.contains "value") = false)
    (h : processFile st (QMOutcome.sheetData hd rows) = Except.ok st2) :
    st2.hadWarnings = true := by
  simp only [processFile] at h
  rw [if_neg (by rw [hcols]; exact Bool.false_ne_true)] at h
  injection h with h2
  rw [← h2]

theorem foldlM_warn_mono :
    ∀ (l : List QMOutcome) (st st2 : LoopState),
      List.foldlM processFile st l = Except.ok st2 → st.hadWarnings = true →
        st2.hadWarnings = true := by
  intro l
  induction l with
  | nil =>
    intro st st2 h hw
    rw [List.foldlM_nil] at h
    injection h with h2
    rw [← h2]
    exact hw
  | cons f rest ih =>
    intro st st2 h hw
    rw [List.foldlM_cons] at h
    cases hp : processFile st f with
    | error e =>
      rw [hp] at h
      exact absurd h (by simp [Bind.bind, Except.bind])
    | ok st1 =>
      rw [hp] at h
      have hb : List.foldlM processFile st1 rest = Except.ok st2 := h
      exact ih st1 st2 hb (processFile_warn_mono hp hw)

theorem foldlM_warn_of_mem {hd : List String} {rows : List (List String)}
    (hcols : (hd.contains "alias" && hd.contains "value") = false) :
    ∀ (l : List QMOutcome) (st st2 : LoopState),
      QMOutcome.sheetData hd rows ∈ l →
      List.foldlM processFile st l = Except.ok st2 → st2.hadWarnings = true := by
  intro l
  induction l with
  | nil => intro st st2 hmem _; exact absurd hmem (List.not_mem_nil _)
  | cons f rest ih =>
    intro st st2 hmem h
    rw [List.foldlM_cons] at h
    cases hp : processFile st f with
    | error e =>
      rw [hp] at h
      exact absurd h (by simp [Bind.bind, Except.bind])
    | ok st1 =>
      rw [hp] at h
      have hb : List.foldlM processFile st1 rest = Except.ok st2 := h
      rcases List.mem_cons.mp hmem with h1 | h2
      · have hw1 : st1.hadWarnings = true := processFile_missingCols hcols (h1 ▸ hp)
        exact foldlM_warn_mono rest st1 st2 hb hw1
      · exact ih st1 st2 h2 hb

/-- A pattern fragment with no SQL wildcard characters. -/
def noWildcard (l : List Char) : Prop :=
  ∀ c ∈ l, c ≠ '%' ∧ c ≠ '_'

instance (l : List Char) : Decidable (noWildcard l) := by
  unfold noWildcard; infer_instance

theorem likeMatch_pct (ps : List Char) (s : List Char) :
    likeMatch ('%' :: ps) s = s.tails.any (fun t => likeMatch ps t) := by
  simp [likeMatch]

theorem likeMatch_single_pct (t : List Char) : likeMatch ['%'] t = true := by
  rw [likeMatch_pct]
  refine List.any_eq_true.mpr ⟨[], (List.mem_tails _ _).mpr List.nil_suffix, ?_⟩
  rfl

theorem likeMatch_cons_nil {c : Char} (ps : List Char)
    (hc1 : c ≠ '%') (hc2 : c ≠ '_') :
    likeMatch (c :: ps) [] = false := by
  simp only [likeMatch]
  rw [if_neg (by simpa using hc1), if_neg (by simpa using hc2)]

theorem likeMatch_cons_cons {c : Char} (ps : List Char) (d : Char) (s2 : List Char)
    (hc1 : c ≠ '%') (hc2 : c ≠ '_') :
    likeMatch (c :: ps) (d :: s2) =
      ((asciiLower c == asciiLower d) && likeMatch ps s2) := by
  simp only [likeMatch]
  rw [if_neg (by simpa using hc1), if_neg (by simpa using hc2)]

theorem likeMatch_trailing_pct {p : List Char} (hw : noWildcard p) :
    ∀ t : List Char,
      (likeMatch (p ++ ['%']) t = true ↔ p.map asciiLower <+: t.map asciiLower) := by
  induction p with
  | nil =>
    intro t
    rw [List.nil_append]
    exact iff_of_true (likeMatch_single_pct t) (List.nil_prefix)
  | cons c p2 ih =>
    have hc := hw c (List.mem_cons_self _ _)
    have hw2 : noWildcard p2 := fun d hd => hw d (List.mem_cons_of_mem _ hd)
    intro t
    cases t with
    | nil =>
      rw [List.cons_append, likeMatch_cons_nil _ hc.1 hc.2]
      refine iff_of_false (by simp) ?_
      intro hpre
      have := List.IsPrefix.length_le hpre
      simp at this
    | cons d t2 =>
      rw [List.cons_append, likeMatch_cons_cons _ _ _ hc.1 hc.2]
      rw [List.map_cons, List.map_cons, List.cons_prefix_cons]
      rw [Bool.and_eq_true, beq_iff_eq, ih hw2 t2]

theorem suffix_map_asciiLower {t2 s : List Char} (h : t2 <:+ s.map asciiLower) :
    ∃ u, u <:+ s ∧ u.map asciiLower = t2 := by
  obtain ⟨v, hv⟩ := h
  have hv2 : s.map asciiLower = v ++ t2 := hv.symm
  obtain ⟨s1, s2, hs, _, hmap2⟩ := List.map_eq_append_iff.mp hv2
  exact ⟨s2, ⟨s1, hs.symm⟩, hmap2⟩

theorem likeMatch_pct_wrap {p : List Char} (hw : noWildcard p) (s : List Char) :
    likeMatch ('%' :: (p ++ ['%'])) s = true ↔
      p.map asciiLower <:+: s.map asciiLower := by
  rw [likeMatch_pct, List.any_eq_true]
  constructor
  · rintro ⟨t, hmem, hmatch⟩
    have hsuf : t <:+ s := (List.mem_tails _ _).mp hmem
    have hpre := (likeMatch_trailing_pct hw t).mp hmatch
    exact List.infix_iff_prefix_suffix.mpr
      ⟨t.map asciiLower, hpre, List.IsSuffix.map _ hsuf⟩
  · intro hinf
    obtain ⟨t2, hpre, hsuf⟩ := List.infix_iff_prefix_suffix.mp hinf
    obtain ⟨u, husuf, humap⟩ := suffix_map_asciiLower hsuf
    refine ⟨u, (List.mem_tails _ _).mpr husuf, ?_⟩
    rw [likeMatch_trailing_pct hw u, humap]
    exact hpre

theorem likeRow_empty_term (r : AliasRecord) : likeRow "" r = true := by
  unfold likeRow
  have hp : ('%' :: (("".data : List Char) ++ ['%'])) = ['%', '%'] := rfl
  rw [hp]
  have h : ∀ s : List Char, likeMatch ['%', '%'] s = true := by
    intro s
    rw [likeMatch_pct]
    exact List.any_eq_true.mpr
      ⟨s, (List.mem_tails _ _).mpr (List.suffix_refl s), likeMatch_single_pct s⟩
  rw [h, h]
  rfl

/-- Claim C1 (counterexample): the claim says an incoming record for an
already-present alias never overwrites the stored value in either merge;
but `update_alias` on a store holding `A001 -> V1` and an incoming sheet
with `A001 -> V2` leaves the store holding `A001 -> V2`. -/
theorem claim_C1_counterexample :
    (update_alias [⟨"A001", "V1"⟩]
        (Except.ok ⟨["alias", "value"], [["A001", "V2"]]⟩)).2 = [⟨"A001", "V2"⟩] ∧
    lookupAlias (update_alias [⟨"A001", "V1"⟩]
        (Except.ok ⟨["alias", "value"], [["A001", "V2"]]⟩)).2 "A001" ≠ some "V1" := by
  constructor
  · decide
  · decide

/-- Claim C1 (amended): only the batch merge of `refresh_all_files` keeps
the existing value for an already-present alias; the single-file
`update_alias` merge uses `INSERT OR REPLACE`, so the stored value becomes
the (last) incoming value instead. -/
theorem claim_C1_amended (store incoming : List AliasRecord) (a : String)
    (hs : aliasMemB store a = true) (hi : aliasMemB incoming a = true) :
    lookupAlias (refreshMerge store incoming) a = lookupAlias store a ∧
    lookupAlias (updateAliasMerge store incoming) a = lookupLast incoming a := by
  constructor
  · unfold refreshMerge dedupKeepFirst
    rw [dedupAux_lookup _ [] rfl]
    exact lookupAlias_append_left hs
  · rw [updateMerge_lookup a incoming store]
    obtain ⟨v, hv⟩ := Option.isSome_iff_exists.mp (lookupLast_isSome hi)
    rw [hv]
    rfl

/-- Witness for C1 (amended) at the concrete conflict `A001`. -/
theorem claim_C1_witness :
    aliasMemB [⟨"A001", "V1"⟩] "A001" = true ∧
    aliasMemB [⟨"A001", "V2"⟩] "A001" = true ∧
    (lookupAlias (refreshMerge [⟨"A001", "V1"⟩] [⟨"A001", "V2"⟩]) "A001" =
        lookupAlias [⟨"A001", "V1"⟩] "A001" ∧
      lookupAlias (updateAliasMerge [⟨"A001", "V1"⟩] [⟨"A001", "V2"⟩]) "A001" =
        lookupLast [⟨"A001", "V2"⟩] "A001") :=
  ⟨by decide, by decide,
    claim_C1_amended [⟨"A001", "V1"⟩] [⟨"A001", "V2"⟩] "A001" (by decide) (by decide)⟩

/-- Claim C2 (counterexample): the claim says a batch with one
contributing file and one file failing only by missing columns reports
`success = true`; the code reports `False` on that batch (the two valid
records are still merged). -/
theorem claim_C2_counterexample :
    refresh_all_files
        [QMOutcome.sheetData ["alias", "value"] [["a1", "v1"], ["a2", "v2"]],
         QMOutcome.sheetData ["Part Number", "Description"] [["x", "y"]]] [] =
      Except.ok (false, [⟨"a1", "v1"⟩, ⟨"a2", "v2"⟩]) := by
  rfl

/-- Claim C2 (amended): a missing-columns file sets `had_warnings`, and
`refresh_all_files` returns `not had_warnings`, so any batch containing a
file without the `alias`/`value` columns reports `success = false` (the
valid files' records are still merged, as the counterexample run shows). -/
theorem claim_C2_amended (files : List QMOutcome) (store merged : List AliasRecord)
    (b : Bool) (hd : List String) (rows : List (List String))
    (hmem : QMOutcome.sheetData hd rows ∈ files)
    (hcols : (hd.contains "alias" && hd.contains "value") = false)
    (hrun : refresh_all_files files store = Except.ok (b, merged)) :
    b = false := by
  unfold refresh_all_files at hrun
  have hne : files.isEmpty = false := by
    cases files with
    | nil => exact absurd hmem (List.not_mem_nil _)
    | cons _ _ => rfl
  rw [if_neg (by rw [hne]; exact Bool.false_ne_true)] at hrun
  cases hf : files.foldlM processFile ⟨false, false, []⟩ with
  | error e =>
    rw [hf] at hrun
    exact absurd hrun (by simp)
  | ok st =>
    rw [hf] at hrun
    injection hrun with h1
    have hw : st.hadWarnings = true := foldlM_warn_of_mem hcols files _ st hmem hf
    have hfst : (!st.hadWarnings) = b := congrArg Prod.fst h1
    rw [← hfst, hw]
    rfl

/-- Witness for C2 (amended) at the two-file counterexample batch. -/
theorem claim_C2_witness :
    QMOutcome.sheetData ["Part Number", "Description"] [["x", "y"]] ∈
      [QMOutcome.sheetData ["alias", "value"] [["a1", "v1"], ["a2", "v2"]],
       QMOutcome.sheetData ["Part Number", "Description"] [["x", "y"]]] ∧
    ((["Part Number", "Description"].contains "alias" &&
       ["Part Number", "Description"].contains "value") = false) ∧
    (false : Bool) = false :=
  ⟨by decide, by decide,
    claim_C2_amended
      [QMOutcome.sheetData ["alias", "value"] [["a1", "v1"], ["a2", "v2"]],
       QMOutcome.sheetData ["Part Number", "Description"] [["x", "y"]]]
      [] [⟨"a1", "v1"⟩, ⟨"a2", "v2"⟩] false
      ["Part Number", "Description"] [["x", "y"]]
      (by decide) (by decide) (by rfl)⟩

/-- Claim C3 (counterexample): the claim says a record is returned iff the
term occurs verbatim (case-sensitively); searching `test123` returns the
record `(test_part, TEST123)` although `test123` occurs in neither field
verbatim, because SQLite `LIKE` compares ASCII letters case-insensitively. -/
theorem claim_C3_counterexample :
    search_parts (Except.ok [⟨"test_part", "TEST123"⟩]) "test123" =
      [⟨"test_part", "TEST123"⟩] ∧
    ¬ specCaseSensitiveMatch "test123" ⟨"test_part", "TEST123"⟩ := by
  constructor
  · decide
  · decide

/-- Claim C3 (amended): for a term without the SQL wildcards `%` and `_`,
`search_parts` returns exactly the records whose alias or value contains
the term up to ASCII case (SQLite `LIKE` semantics), not case-sensitively. -/
theorem claim_C3_amended (store : List AliasRecord) (term : String) (r : AliasRecord)
    (hw : noWildcard term.data) :
    r ∈ search_parts (Except.ok store) term ↔
      r ∈ store ∧ (ciContains term r.alias ∨ ciContains term r.value) := by
  have hlike : likeRow term r = true ↔
      (ciContains term r.alias ∨ ciContains term r.value) := by
    unfold likeRow ciContains
    rw [Bool.or_eq_true]
    exact or_congr (likeMatch_pct_wrap hw _) (likeMatch_pct_wrap hw _)
  unfold search_parts
  rw [List.mem_filter, hlike]

/-- Witness for C3 (amended) at the concrete term `test123`. -/
theorem claim_C3_witness :
    noWildcard "test123".data ∧
    (AliasRecord.mk "test_part" "TEST123" ∈
        search_parts (Except.ok [⟨"test_part", "TEST123"⟩]) "test123" ↔
      AliasRecord.mk "test_part" "TEST123" ∈ [AliasRecord.mk "test_part" "TEST123"] ∧
        (ciContains "test123" "test_part" ∨ ciContains "test123" "TEST123")) :=
  ⟨by decide,
    claim_C3_amended [⟨"test_part", "TEST123"⟩] "test123" ⟨"test_part", "TEST123"⟩
      (by decide)⟩

/-- Claim C4 (code bug): a read error on the very first candidate file
leaves the Python name `qm_file` unbound, so the loop's `finally` block
raises `NameError` and the whole batch aborts with `Error preparing
master file`, instead of recording the outcome and continuing; the same
error on a later file is recorded and processing continues. -/
theorem claim_C4_bug_eval :
    refresh_all_files
        [QMOutcome.openError "missing.xlsx not found",
         QMOutcome.sheetData ["alias", "value"] [["a1", "v1"]]] [] =
      Except.error "Error preparing master file: name qm_file is not defined" ∧
    refresh_all_files
        [QMOutcome.sheetData ["alias", "value"] [["a1", "v1"]],
         QMOutcome.openError "missing.xlsx not found"] [] =
      Except.ok (false, [⟨"a1", "v1"⟩]) :=
  ⟨rfl, rfl⟩

/-- Claim C5 (code bug): `get_eau_forecast` references the unbound name
`file_path`, so every call (for example `TEST001`, which the integration
test expects to yield `eau = 100`) raises `NameError` and never returns a
forecast record. -/
theorem claim_C5_bug_eval :
    get_eau_forecast "TEST001" = Except.error "name file_path is not defined" ∧
    ∀ p : String, get_eau_forecast p = Except.error "name file_path is not defined" :=
  ⟨rfl, fun _ => rfl⟩

/-- Claim C6 (counterexample): the claim says an empty search term is
rejected before querying and the store's full contents are not returned;
the code runs `LIKE %%` and returns the full store. -/
theorem claim_C6_counterexample :
    search_parts (Except.ok [⟨"test_part", "TEST123"⟩]) "" =
      [⟨"test_part", "TEST123"⟩] := by
  decide

/-- Claim C6 (amended): `search_parts` performs no input validation; with
the empty term the query pattern is `%%`, which matches every row, so the
store's full contents are returned. -/
theorem claim_C6_amended (store : List AliasRecord) :
    search_parts (Except.ok store) "" = store := by
  unfold search_parts
  exact List.filter_eq_self.mpr (fun r _ => likeRow_empty_term r)

/-- Claim C7 (confirmed): the batch accumulated across the candidate
files is deduplicated by alias keeping, for each alias, the record of its
earliest occurrence in file-processing order (first-match lookup is
preserved and every kept record comes from the batch), and the merged
store carries no two rows with the same alias. -/
theorem claim_C7 (batches : List (List AliasRecord)) (existing : List AliasRecord) :
    (∀ a, lookupAlias (dedupKeepFirst batches.flatten) a =
        lookupAlias batches.flatten a) ∧
    (∀ r ∈ dedupKeepFirst batches.flatten, r ∈ batches.flatten) ∧
    AliasNodup (refreshMerge existing batches.flatten) :=
  ⟨fun a => dedup_lookup _ a, fun _ hr => dedup_mem hr, dedup_nodup _⟩

theorem refresh_eval {files : List QMOutcome} (store : List AliasRecord)
    {st : LoopState} (hne : files.isEmpty = false)
    (hf : List.foldlM processFile ⟨false, false, []⟩ files = Except.ok st) :
    refresh_all_files files store =
      Except.ok (!st.hadWarnings,
        if st.allAliases.isEmpty then store
        else refreshMerge store st.allAliases.flatten) := by
  unfold refresh_all_files
  rw [if_neg (by rw [hne]; exact Bool.false_ne_true), hf]

/-- Claim C8 (confirmed): `refresh_all_files` is idempotent — when a run
on given file outcomes and store state returns flag `b` and store `s1`,
running it again on the same file outcomes against `s1` returns the same
flag and leaves the store at `s1`. -/
theorem claim_C8 (files : List QMOutcome) (store : List AliasRecord)
    (b : Bool) (s1 : List AliasRecord)
    (h : refresh_all_files files store = Except.ok (b, s1)) :
    refresh_all_files files s1 = Except.ok (b, s1) := by
  by_cases hne : files.isEmpty = true
  · unfold refresh_all_files at h ⊢
    rw [if_pos hne] at h ⊢
    injection h with h2
    have hb : false = b := congrArg Prod.fst h2
    have hs : store = s1 := congrArg Prod.snd h2
    rw [← hb, ← hs]
  · have hne2 : files.isEmpty = false := Bool.not_eq_true _ ▸ hne
    cases hf : List.foldlM processFile ⟨false, false, []⟩ files with
    | error e =>
      unfold refresh_all_files at h
      rw [if_neg hne, hf] at h
      exact absurd h (by simp)
    | ok st =>
      rw [refresh_eval store hne2 hf] at h
      injection h with h2
      have hb : (!st.hadWarnings) = b := congrArg Prod.fst h2
      have hs : (if st.allAliases.isEmpty then store
          else refreshMerge store st.allAliases.flatten) = s1 := congrArg Prod.snd h2
      rw [refresh_eval s1 hne2 hf]
      by_cases he : st.allAliases.isEmpty = true
      · rw [if_pos he] at hs
        rw [if_pos he, hb]
      · rw [if_neg he] at hs
        rw [if_neg he]
        have hmerge : refreshMerge s1 st.allAliases.flatten = s1 := by
          rw [← hs]
          unfold refreshMerge
          apply dedup_absorb (dedup_nodup _)
          intro r hr
          rw [dedup_aliasMem]
          have h1 : aliasMemB (dedupKeepFirst st.allAliases.flatten) r.alias = true :=
            aliasMemB_iff.mpr ⟨r, hr, rfl⟩
          unfold aliasMemB at h1 ⊢
          rw [List.any_append, h1, Bool.or_true]
        rw [hmerge, hb]

/-- Witness for C8 at a concrete one-file run over a non-empty store. -/
theorem claim_C8_witness :
    refresh_all_files [QMOutcome.sheetData ["alias", "value"] [["a1", "v1"]]]
        [⟨"b", "w"⟩] = Except.ok (true, [⟨"b", "w"⟩, ⟨"a1", "v1"⟩]) ∧
    refresh_all_files [QMOutcome.sheetData ["alias", "value"] [["a1", "v1"]]]
        [⟨"b", "w"⟩, ⟨"a1", "v1"⟩] = Except.ok (true, [⟨"b", "w"⟩, ⟨"a1", "v1"⟩]) :=
  ⟨by rfl,
    claim_C8 [QMOutcome.sheetData ["alias", "value"] [["a1", "v1"]]]
      [⟨"b", "w"⟩] true [⟨"b", "w"⟩, ⟨"a1", "v1"⟩] (by rfl)⟩

/-- Claim C9 (confirmed): the `quote_masters` audit table is created
empty at database initialization and no public operation writes to it, so
it stays empty after any sequence of operations. -/
theorem claim_C9 (sandbox0 : List AliasRecord) (ops : List ManagerOp) :
    (ops.foldl applyOp (initialState sandbox0)).quote_masters = [] := by
  have hstep : ∀ (st : AppState) (op : ManagerOp),
      (applyOp st op).quote_masters = st.quote_masters := by
    intro st op
    cases op with
    | updateAlias f => rfl
    | refreshAll fs =>
      simp only [applyOp]
      cases refresh_all_files fs st.sandbox with
      | ok p => cases p; rfl
      | error e => rfl
    | searchParts t => rfl
    | getQuoteMasterFiles l => rfl
    | getEauForecast p => rfl
  suffices hfold : ∀ (l : List ManagerOp) (st : AppState),
      (l.foldl applyOp st).quote_masters = st.quote_masters by
    rw [hfold ops (initialState sandbox0)]
    rfl
  intro l
  induction l with
  | nil => intro st; rfl
  | cons op rest ih =>
    intro st
    rw [List.foldl_cons, ih, hstep]

/-- Claim C10 (confirmed): `search_parts` and `get_quote_master_files`
are total functions into lists — any internal error (the `Except.error`
input, covering every exception the Python body can catch) produces the
empty list rather than propagating. -/
theorem claim_C10 (e : String) (term : String) :
    search_parts (Except.error e) term = [] ∧
    get_quote_master_files (Except.error e) = [] :=
  ⟨rfl, rfl⟩

end PartsSandbox
